import Mathlib

/-!
Verification of the MCMC fitting module (`holopy/fitting/mcmc.py`).

This file shallowly embeds the pure algorithmic content of the module:

* `UncertainValue.__init__`  -> `mkUncertainValue`
* `SamplingResult._values`   -> `svalues` (the posterior summarizer)
* `EmceeResult.data_frame`   -> `data_frame` (flattening + thinning)
* `EmceeResult.most_probable_values` -> `most_probable_values`
* `EmceeResult.values`       -> `Emcee_values`
* `EmceeResult.updated_priors` -> `updated_priors`
* `subset_tempering`'s fraction schedule -> `subset_tempering_fractions`
* `subset_tempering`'s stage loop (over an abstract sampler) -> `subset_tempering_run`
* `SamplingResult.save` / `SamplingResult.load` / `load_sampling`

Numeric values (parameter values, log-probabilities) are modelled as `ℚ`;
the log-spaced fraction schedule, which uses `log10`/`10**`, is modelled over
`ℝ`.  Fallible code paths (out-of-bounds pandas `iloc` access, `max()` of an
empty sequence, slice step `<= 0`) are modelled as `Option` with `none` for
the raised exception.
-/

namespace HolopyMcmc

/-! ## Data model -/

/-- Field model of `UncertainValue`: `value`, `plus`, `minus` (a `float or None`
in the source, hence `Option ℚ`), `n_sigma`. -/
structure UncertainValue where
  value : ℚ
  plus : ℚ
  minus : Option ℚ
  n_sigma : ℚ
deriving DecidableEq

/-- `UncertainValue.__init__(self, value, plus, minus=None, n_sigma=1)`:
plain field assignment.  A call that omits `minus` passes `none`, a call that
omits `n_sigma` passes `1`, mirroring the Python defaults. -/
def mkUncertainValue (value plus : ℚ) (minus : Option ℚ) (n_sigma : ℚ) : UncertainValue :=
  ⟨value, plus, minus, n_sigma⟩

/-- One row of the flattened sample table: the parameter columns (in model
order) and the `lnprob` column. -/
structure Row where
  params : List ℚ
  lnprob : ℚ
deriving DecidableEq

/-- The descending-`lnprob` comparison used by `d.sort_values('lnprob',
ascending=False)`: `a` goes before `b` when `b.lnprob <= a.lnprob`. -/
def rowGE (a b : Row) : Prop := b.lnprob ≤ a.lnprob

instance : DecidableRel rowGE := fun a b => inferInstanceAs (Decidable (b.lnprob ≤ a.lnprob))

instance : IsTotal Row rowGE := ⟨fun a b => le_total b.lnprob a.lnprob⟩

instance : IsTrans Row rowGE := ⟨fun _ _ _ hab hbc => le_trans hbc hab⟩

/-- `foldl max`: the running maximum of a list given a starting value.  Models
`pandas.Series.max` / `numpy.max` on a nonempty sequence (start = first
element, fold over the rest). -/
def listMaxD (l : List ℚ) (a : ℚ) : ℚ := l.foldl max a

/-- `d.lnprob.max()` for the nonempty (sorted) table `r :: rest`. -/
def lnprobMax (r : Row) (rest : List Row) : ℚ := listMaxD (rest.map Row.lnprob) r.lnprob

/-! ## The posterior summarizer `SamplingResult._values` -/

/-- The threshold loop of `SamplingResult._values`:

    i = 0
    while d.lnprob.iloc[i] > d.lnprob.max()-.5 and i < d.shape[0]:
        i+=1

Python evaluates `d.lnprob.iloc[i]` before the `i < d.shape[0]` test, so when
every remaining value exceeds the threshold the loop reads index `d.shape[0]`
and raises `IndexError`: that exception is modelled as `none`.  (The
`i < d.shape[0]` conjunct can only be reached with `i < d.shape[0]`, where it
is true, so walking the list positionally is an exact model.) -/
def scanAux (thr : ℚ) : List ℚ → ℕ → Option ℕ
  | [], _ => none
  | v :: rest, i => if thr < v then scanAux thr rest (i + 1) else some i

/-- `(b == mp).any()`: some coordinate of `b` equals the matching coordinate of
`mp` (pandas aligns the two series; both always carry the parameter columns). -/
def anyEq (b mp : List ℚ) : Bool := (b.zip mp).any fun p => decide (p.1 = p.2)

/-- The `find_bound(f, i)` loop of `SamplingResult._values`:

    b = d.iloc[0, :-1]
    while (b == mp).any() and i < d.shape[0]:
        b = f(b, d.iloc[i,:-1])
        i+=1
    return b

walked over the rows from index `i` on (the argument list is `d[i:]`);
`(b == mp).any()` is evaluated before the bound test, so this loop exits
without any out-of-range access. -/
def findBoundAux (f : ℚ → ℚ → ℚ) (mp : List ℚ) : List ℚ → List Row → List ℚ
  | b, [] => b
  | b, r :: rest => if anyEq b mp then findBoundAux f mp (List.zipWith f b r.params) rest else b

/-- The result list
`[UncertainValue(mp[p], upper[p]-mp[p], mp[p]-lower[p]) for p in self._names]`:
one `UncertainValue` per parameter, `minus` passed explicitly as the third
positional argument, `n_sigma` left at its default `1`. -/
def mkUVs (mp upper lower : List ℚ) : List UncertainValue :=
  (mp.zip (upper.zip lower)).map fun t => mkUncertainValue t.1 (t.2.1 - t.1) (some (t.1 - t.2.2)) 1

/-- `SamplingResult._values(d)`:

    d = d.sort_values('lnprob', ascending=False)
    mp = d.iloc[0,:-1]
    def find_bound(f, i): ...
    i = 0
    while d.lnprob.iloc[i] > d.lnprob.max()-.5 and i < d.shape[0]: i+=1
    upper = find_bound(np.maximum, i+1)
    lower = find_bound(np.minimum, i+1)
    return [UncertainValue(mp[p], upper[p]-mp[p], mp[p]-lower[p]) for p in self._names]

`sort_values` is modelled as a deterministic (stable) insertion sort on the
descending-`lnprob` order; `iloc[0]` on an empty table and the threshold-loop
overrun both surface as `none`. -/
def svalues (d : List Row) : Option (List UncertainValue) :=
  match List.insertionSort rowGE d with
  | [] => none
  | r0 :: rest =>
    match scanAux (lnprobMax r0 rest - 1/2) ((r0 :: rest).map Row.lnprob) 0 with
    | none => none
    | some i =>
      some (mkUVs r0.params
        (findBoundAux (fun a b => max a b) r0.params r0.params ((r0 :: rest).drop (i + 1)))
        (findBoundAux (fun a b => min a b) r0.params r0.params ((r0 :: rest).drop (i + 1))))

/-! ## Reference formulations of the summarizer

`spec_values_independent` formalizes the summarizer exactly as the
specification describes it (per-parameter independent bound scans, threshold
strictly below `Lmax - 0.5`); `spec_values_joint` is an alternative
formulation of the joint scan the code actually performs, used to state the
amended claim as a refinement equality. -/

/-- First index satisfying the predicate (`none` if there is none). -/
def findIdxQ (p : ℚ → Bool) : List ℚ → Option ℕ
  | [] => none
  | x :: xs => if p x then some 0 else (findIdxQ p xs).map (· + 1)

/-- All accumulated values of a fold, starting with the seed. -/
def scanList (g : List ℚ → List ℚ → List ℚ) (b : List ℚ) : List (List ℚ) → List (List ℚ)
  | [] => [b]
  | x :: xs => b :: scanList g (g b x) xs

/-- First accumulated value every coordinate of which differs from `mp`. -/
def firstDiverged (mp : List ℚ) : List (List ℚ) → Option (List ℚ)
  | [] => none
  | b :: bs => if anyEq b mp then firstDiverged mp bs else some b

/-- Last element of a list of vectors, with a default for the empty list. -/
def lastOr (dflt : List ℚ) : List (List ℚ) → List ℚ
  | [] => dflt
  | [b] => b
  | _ :: b :: bs => lastOr dflt (b :: bs)

/-- The value at which the joint accumulation loop stops: the first
accumulated vector fully diverged from `mp`, or the final accumulated vector
when the rows run out first. -/
def boundPick (mp : List ℚ) (bs : List (List ℚ)) : List ℚ :=
  match firstDiverged mp bs with
  | some b => b
  | none => lastOr mp bs

/-- Per-parameter independent scan as the specification words it: the scalar
bound for one parameter keeps folding while it still equals that parameter's
MAP value, and stops as soon as it diverges. -/
def indepScanAux (f : ℚ → ℚ → ℚ) (m : ℚ) : ℚ → List ℚ → ℚ
  | b, [] => b
  | b, v :: rest => if b = m then indepScanAux f m (f b v) rest else b

/-- The summarizer as claimed by the specification: `mp` from the top row of
the descending sort, `i` the smallest index whose log-probability is strictly
below `Lmax - 0.5`, then from row `i+1` on a per-parameter *independent*
running max/min, each parameter stopping on its own divergence. -/
def spec_values_independent (d : List Row) : Option (List UncertainValue) :=
  match List.insertionSort rowGE d with
  | [] => none
  | r0 :: rest =>
    match findIdxQ (fun v => decide (v < lnprobMax r0 rest - 1/2))
        ((r0 :: rest).map Row.lnprob) with
    | none => none
    | some i =>
      some ((List.range r0.params.length).map fun k =>
        mkUncertainValue (r0.params.getD k 0)
          (indepScanAux (fun a b => max a b) (r0.params.getD k 0) (r0.params.getD k 0)
              ((((r0 :: rest).drop (i + 1)).map Row.params).filterMap fun p => p.get? k)
            - r0.params.getD k 0)
          (some (r0.params.getD k 0
            - indepScanAux (fun a b => min a b) (r0.params.getD k 0) (r0.params.getD k 0)
                ((((r0 :: rest).drop (i + 1)).map Row.params).filterMap fun p => p.get? k)))
          1)

/-- The summarizer as the code actually behaves, stated without loops: `i` is
the first index with log-probability `≤ Lmax - 0.5` (`none`, i.e. the
`IndexError`, when every row is above the threshold), and the bound is read
off the trace of the *joint* elementwise fold over the rows from `i+1` on:
the first accumulated vector all of whose coordinates differ from `mp`, or
the last accumulated vector when rows run out first. -/
def spec_values_joint (d : List Row) : Option (List UncertainValue) :=
  match List.insertionSort rowGE d with
  | [] => none
  | r0 :: rest =>
    match findIdxQ (fun v => decide (v ≤ lnprobMax r0 rest - 1/2))
        ((r0 :: rest).map Row.lnprob) with
    | none => none
    | some i =>
      some (mkUVs r0.params
        (boundPick r0.params (scanList (List.zipWith fun a b => max a b) r0.params
          (((r0 :: rest).drop (i + 1)).map Row.params)))
        (boundPick r0.params (scanList (List.zipWith fun a b => min a b) r0.params
          (((r0 :: rest).drop (i + 1)).map Row.params))))

/-! ## Prior refinement -/

/-- A Gaussian proposal distribution, the prior family `subset_tempering`
reports on (`p.mu`, `p.sd` in `sample_string`). -/
structure GaussianPrior where
  mu : ℚ
  sd : ℚ
deriving DecidableEq

/-- Modelled from the spec: the `prior.updated` rule of the `prior` module
(not part of this repository snapshot).  Per §4.4/§9 it converts one
parameter's summarized `UncertainValue` into a new prior of the same family
centred at the summarized value, with width derived from the `plus`/`minus`
deviations, optionally inflated by `extra_uncertainty` (default `0`).  A
`None` stored `minus` means a symmetric uncertainty, i.e. width `plus`. -/
def prior_updated (uv : UncertainValue) (extra : ℚ) : GaussianPrior :=
  ⟨uv.value, max uv.plus (uv.minus.getD uv.plus) + extra⟩

/-- `EmceeResult.updated_priors(extra_uncertainty=None)` applied to a
summary: `extra_uncertainty` defaults to `np.zeros(...)`, so every parameter
gets `extra = 0`. -/
def updated_priors_model (uvs : List UncertainValue) : List GaussianPrior :=
  uvs.map fun uv => prior_updated uv 0

/-! ## The Emcee result wrapper: chain flattening, thinning, MAP reading -/

/-- The state of `EmceeResult.sampler` that `data_frame`,
`most_probable_values` and `values` consume: `chain` (walker x step x
parameter), `lnprobability` (walker x step) and the per-parameter
autocorrelation lengths `acor` computed by the external sampler. -/
structure Sampler where
  chain : List (List (List ℚ))
  lnprobability : List (List ℚ)
  acor : List ℚ

/-- The `thin` argument of `EmceeResult.data_frame`: `'acor'`, `None`, or an
integer stride. -/
inductive ThinArg
  | acor
  | noThin
  | num (n : ℤ)

/-- Python `int()` applied to a rational: truncation toward zero. -/
def pyInt (q : ℚ) : ℤ := if q < 0 then ⌈q⌉ else ⌊q⌋

/-- Positional worker for Python slicing `l[b::t]` (`t ≥ 1`): skip `k` more
elements, then keep the head and restart the countdown at `t - 1`. -/
def pySliceGo (t : ℕ) : List α → ℕ → List α
  | [], _ => []
  | x :: xs, 0 => x :: pySliceGo t xs (t - 1)
  | _ :: xs, k + 1 => pySliceGo t xs k

/-- Python slice `l[b::t]` for a step `t ≥ 1`: the elements at indices
`b, b+t, b+2t, ...`. -/
def pySlice (l : List α) (b t : ℕ) : List α := pySliceGo t l b

/-- Resolution of the `thin` argument at the top of `data_frame`:

    if thin == 'acor':
        thin = int(max(self.sampler.acor))
    elif thin is None:
        thin = 1

`max()` of an empty sequence raises (`none`). -/
def resolveThin (s : Sampler) : ThinArg → Option ℤ
  | ThinArg.acor =>
    match s.acor with
    | [] => none
    | x :: xs => some (pyInt (listMaxD xs x))
  | ThinArg.noThin => some 1
  | ThinArg.num n => some n

/-- `EmceeResult.data_frame(burn_in, thin, include_lnprob=True)`:

    chain = self.sampler.chain[:, burn_in::thin, ...]
    df = pd.DataFrame({n: t for (n, t) in zip(names, chain.reshape(-1, npar).T)})
    df['lnprob'] = self.sampler.lnprobability[:, burn_in::thin].reshape(-1)

modelled as the list of rows of the resulting frame, in the row-major
(walker-major) order `reshape(-1, npar)` produces.  A non-positive resolved
stride makes the Python slice raise (`none`); negative strides (reversing
slices) never arise from `'acor'`/`None` and are folded into the same guard. -/
def data_frame (s : Sampler) (burn_in : ℕ) (t : ThinArg) : Option (List Row) :=
  match resolveThin s t with
  | none => none
  | some z =>
    if 1 ≤ z then
      some (List.zipWith Row.mk
        ((s.chain.map fun w => pySlice w burn_in z.toNat).flatten)
        ((s.lnprobability.map fun w => pySlice w burn_in z.toNat).flatten))
    else none

/-- The fully flattened table: `data_frame(burn_in=0, thin=None)`'s rows. -/
def flatRows (s : Sampler) : List Row :=
  List.zipWith Row.mk s.chain.flatten s.lnprobability.flatten

/-- `EmceeResult.values()`:

    d = self.data_frame(thin=None)
    return self._values(d)
-/
def Emcee_values (s : Sampler) : Option (List UncertainValue) :=
  match data_frame s 0 ThinArg.noThin with
  | none => none
  | some d => svalues d

/-- `EmceeResult.updated_priors(extra_uncertainty=None)`:

    return [prior.updated(*p) for p in
            zip(self.model.parameters, self.values(), extra_uncertainty)]
-/
def updated_priors (s : Sampler) : Option (List GaussianPrior) :=
  (Emcee_values s).map updated_priors_model

/-- `self.sampler.chain[np.where(self.sampler.lnprobability == self.sampler.lnprobability.max())]`:
the parameter vectors at every (walker, step) position attaining the maximal
log-probability, in row-major position order.  An empty `lnprobability` would
make `numpy.max` raise; that unreachable-in-practice case is modelled as `[]`. -/
def maxPositions (s : Sampler) : List (List ℚ) :=
  match s.lnprobability.flatten with
  | [] => []
  | x :: xs =>
    ((s.chain.zip s.lnprobability).map fun p =>
      (p.1.zip p.2).filterMap fun q =>
        if q.2 = listMaxD xs x then some q.1 else none).flatten

/-- `EmceeResult.most_probable_values()`: the positions of maximal
log-probability; when they all carry the same parameter vector the result is
collapsed to that single vector (`values[0]`), otherwise the whole
two-dimensional array is returned (with a printed warning). -/
def most_probable_values (s : Sampler) : List (List ℚ) :=
  match maxPositions s with
  | [] => []
  | v :: rest => if rest.all fun y => decide (y = v) then [v] else v :: rest

/-- The shape invariant an `emcee` sampler guarantees: `chain` and
`lnprobability` have the same number of walkers and, walker by walker, the
same number of steps. -/
def shapeOk (s : Sampler) : Prop :=
  s.chain.length = s.lnprobability.length ∧
    ∀ p ∈ s.chain.zip s.lnprobability, p.1.length = p.2.length

/-! ## Persistence: `save`, `load`, `load_sampling`

The HDF5 file written by `SamplingResult._save` is modelled as a record
holding the samples table (`df.to_hdf(filename, 'samples')`) and — modelled
from the spec, since `yaml`/`h5py` are external — a faithful serialized copy
of the model definition (`g.attrs['model'] = yaml.dump(self.model)`,
recovered by `yaml.load`). -/

/-- The model definition attached to a result: ordered parameter names and
their priors. -/
structure ModelDef where
  names : List String
  priors : List GaussianPrior
deriving DecidableEq

/-- A `SamplingResult`: a flattened samples table plus its model. -/
structure SamplingResultM where
  samples : List Row
  model : ModelDef
deriving DecidableEq

/-- The persisted artifact. -/
structure HdfFile where
  samples : List Row
  model_attr : ModelDef
deriving DecidableEq

/-- `SamplingResult.save` / `_save`: write the samples table and attach the
serialized model as metadata. -/
def SamplingResult_save (r : SamplingResultM) : HdfFile :=
  ⟨r.samples, r.model⟩

/-- `SamplingResult.load` (the classmethod):

    @classmethod
    def load(cls, filename):
        samples = pd.read_hdf(filename, 'samples')

It reads the samples table into a local variable and then falls off the end
of the function, returning `None`; no `SamplingResult` is ever constructed
and the model metadata is never read. -/
def SamplingResult_load (f : HdfFile) : Option SamplingResultM :=
  let _samples := f.samples
  none

/-- The module-level `load_sampling(filename)`: reads the samples table and
the serialized model and rebuilds `SamplingResult(samples, model)`. -/
def load_sampling (f : HdfFile) : SamplingResultM :=
  ⟨f.samples, f.model_attr⟩

/-! ## The subset-tempering schedule -/

/-- `np.logspace(start, stop, num)`: `10 ** linspace(start, stop, num)`,
i.e. `num` points `10 ^ (start + i*(stop-start)/(num-1))`.  (For `num = 1`
the formula degenerates to `[10 ^ start]`, matching numpy's special case,
because `0 * (stop-start) / 0 = 0` here.) -/
noncomputable def np_logspace (start stop : ℝ) (num : ℕ) : List ℝ :=
  (List.range num).map fun (i : ℕ) =>
    (10 : ℝ) ^ (start + (i : ℝ) * (stop - start) / ((num : ℝ) - 1))

/-- The fraction schedule of `subset_tempering`:

    fractions = np.logspace(np.log10(min_pixels), np.log10(max_pixels), stages+1)/n_pixels
-/
noncomputable def subset_tempering_fractions (min_pixels max_pixels n_pixels stages : ℕ) :
    List ℝ :=
  (np_logspace (Real.logb 10 min_pixels) (Real.logb 10 max_pixels) (stages + 1)).map
    fun x => x / (n_pixels : ℝ)

/-- The operations `subset_tempering` composes, abstracted: `sample f n p0`
is one `Emcee(..., random_subset=f).sample(n, p0)` run on the data subset of
fraction `f`; `guess` is `Emcee.make_guess()`, the walker positions drawn
from the *original* model priors; `refine r` is
`np.vstack([p.sample(size=nwalkers) for p in r.updated_priors()]).T`, the
walker positions drawn from the stage's refined priors. -/
structure McmcOps (R P : Type) where
  sample : ℝ → ℕ → P → R
  guess : P
  refine : R → P

/-- `Emcee.sample(n_samples, p0)`: `if p0 is None: p0 = self.make_guess()`,
then one sampler run. -/
def emcee_sample (ops : McmcOps R P) (fraction : ℝ) (n : ℕ) (p0 : Option P) : R :=
  ops.sample fraction n (p0.getD ops.guess)

/-- The stage loop of `subset_tempering`:

    p0 = None
    for fraction in stage_fractions:
        result = Emcee(...random_subset=fraction...).sample(stage_len, p0)
        new_pars = result.updated_priors()
        p0 = np.vstack([p.sample(size=nwalkers) for p in new_pars]).T
    result = Emcee(...random_subset=final_fraction...).sample(final_len, p0)
    return result

with `stage_fractions = fractions[:-1]` and `final_fraction = fractions[-1]`. -/
noncomputable def subset_tempering_run (ops : McmcOps R P)
    (min_pixels max_pixels n_pixels stages stage_len final_len : ℕ) : R :=
  emcee_sample ops
    ((subset_tempering_fractions min_pixels max_pixels n_pixels stages).getLastD 0)
    final_len
    ((subset_tempering_fractions min_pixels max_pixels n_pixels stages).dropLast.foldl
      (fun p0 f => some (ops.refine (emcee_sample ops f stage_len p0))) none)

/-! ## Concrete instances used by counterexamples and witnesses -/

/-- A four-row, two-parameter table separating the joint scan the code
performs from the independent per-parameter scan the specification claims. -/
def exC2 : List Row := [⟨[0, 0], 10⟩, ⟨[1, 1], 9⟩, ⟨[5, 0], 8⟩, ⟨[10, 1], 7⟩]

/-- A three-row table whose top row strictly dominates the others. -/
def exC3 : List Row := [⟨[0], 10⟩, ⟨[7], 5⟩, ⟨[3], 4⟩]

/-- A sampler whose chain has collapsed: every walker position carries the
same parameter value `4`. -/
def exC4s : Sampler := ⟨[[[4], [4]]], [[10, 9]], [1]⟩

/-- A sampler for exercising `data_frame` with `thin='acor'`. -/
def exC7s : Sampler := ⟨[[[1], [2], [3], [4], [5]]], [[0, 0, 0, 0, 0]], [2]⟩

/-- A one-walker, two-step sampler whose two log-probabilities are within
`0.5` of each other. -/
def exC8s : Sampler := ⟨[[[1], [2]]], [[10, 99/10]], [1]⟩

/-- A one-walker, two-step sampler with a well-separated maximum. -/
def exC8w : Sampler := ⟨[[[1], [2]]], [[10, 9]], [1]⟩

/-- A concrete instantiation of the abstract sampler operations. -/
def exC9ops : McmcOps ℕ ℕ :=
  ⟨fun _ n p => n + p, 7, fun r => r⟩

/-! ## Helper lemmas -/

theorem le_listMaxD (l : List ℚ) (a : ℚ) : a ≤ listMaxD l a := by
  induction l generalizing a with
  | nil => exact le_refl a
  | cons x xs ih => exact le_trans (le_max_left a x) (ih (max a x))

theorem mem_le_listMaxD (l : List ℚ) (a : ℚ) : ∀ x ∈ l, x ≤ listMaxD l a := by
  induction l generalizing a with
  | nil => intro x hx; cases hx
  | cons y ys ih =>
    intro x hx
    rcases List.mem_cons.mp hx with h | h
    · subst h
      exact le_trans (le_max_right a x) (le_listMaxD ys (max a x))
    · exact ih (max a y) x h

theorem listMaxD_eq_of_le {l : List ℚ} {a : ℚ} (h : ∀ x ∈ l, x ≤ a) : listMaxD l a = a := by
  induction l with
  | nil => rfl
  | cons x xs ih =>
    have hx : x ≤ a := h x (List.mem_cons_self x xs)
    have hm : max a x = a := max_eq_left hx
    simpa [listMaxD, hm] using ih (fun y hy => h y (List.mem_cons_of_mem x hy))

theorem listMaxD_mem_cons (l : List ℚ) (a : ℚ) : listMaxD l a ∈ a :: l := by
  induction l generalizing a with
  | nil => simp [listMaxD]
  | cons x xs ih =>
    have h := ih (max a x)
    rcases List.mem_cons.mp h with h1 | h1
    · rcases max_choice a x with hm | hm
      · have he : listMaxD (x :: xs) a = a := by
          show listMaxD xs (max a x) = a
          rw [h1, hm]
        rw [he]
        exact List.mem_cons_self _ _
      · have he : listMaxD (x :: xs) a = x := by
          show listMaxD xs (max a x) = x
          rw [h1, hm]
        rw [he]
        exact List.mem_cons.mpr (Or.inr (List.mem_cons_self _ _))
    · exact List.mem_cons.mpr (Or.inr (List.mem_cons.mpr (Or.inr h1)))

theorem mkUVs_self (mp : List ℚ) :
    mkUVs mp mp mp = mp.map fun v => mkUncertainValue v 0 (some 0) 1 := by
  induction mp with
  | nil => rfl
  | cons v t ih =>
    simp only [mkUVs, List.zip_cons_cons, List.map_cons] at ih ⊢
    rw [ih]
    simp [mkUncertainValue]

theorem scanAux_eq_findIdxQ (thr : ℚ) (l : List ℚ) :
    ∀ i, scanAux thr l i = (findIdxQ (fun v => decide (v ≤ thr)) l).map (· + i) := by
  induction l with
  | nil => intro i; rfl
  | cons v rest ih =>
    intro i
    by_cases h : thr < v
    · have hv : (decide (v ≤ thr)) = false := by simp [not_le.mpr h]
      simp only [scanAux, findIdxQ, if_pos h, hv, Bool.false_eq_true, if_false,
        ih (i + 1), Option.map_map]
      congr 1
      funext j
      simp [Function.comp]
      omega
    · have hv : (decide (v ≤ thr)) = true := by simp [le_of_not_lt h]
      simp [scanAux, findIdxQ, if_neg h, hv]

theorem scanList_ne_nil (g : List ℚ → List ℚ → List ℚ) (b : List ℚ) (bs : List (List ℚ)) :
    scanList g b bs ≠ [] := by
  cases bs <;> simp [scanList]

theorem lastOr_cons_of_ne_nil (d b : List ℚ) (rest : List (List ℚ)) (h : rest ≠ []) :
    lastOr d (b :: rest) = lastOr d rest := by
  cases rest with
  | nil => exact absurd rfl h
  | cons c cs => rfl

theorem findBoundAux_eq_boundPick (f : ℚ → ℚ → ℚ) (mp : List ℚ) :
    ∀ (rows : List Row) (b : List ℚ),
      findBoundAux f mp b rows =
        boundPick mp (scanList (List.zipWith f) b (rows.map Row.params)) := by
  intro rows
  induction rows with
  | nil =>
    intro b
    by_cases h : anyEq b mp
    · simp [findBoundAux, boundPick, scanList, firstDiverged, lastOr, h]
    · simp [findBoundAux, boundPick, scanList, firstDiverged, lastOr, h]
  | cons r rows ih =>
    intro b
    by_cases h : anyEq b mp
    · have hne := scanList_ne_nil (List.zipWith f) (List.zipWith f b r.params)
        (rows.map Row.params)
      simp only [findBoundAux, if_pos h, List.map_cons, scanList, boundPick,
        firstDiverged, h, if_true]
      rw [ih (List.zipWith f b r.params)]
      unfold boundPick
      cases hfd : firstDiverged mp (scanList (List.zipWith f) (List.zipWith f b r.params)
          (rows.map Row.params)) with
      | some x => rfl
      | none => exact (lastOr_cons_of_ne_nil mp b _ hne).symm
    · simp [findBoundAux, if_neg h, List.map_cons, scanList, boundPick, firstDiverged, h]

/-! ## Claim theorems -/

/-- C10: on a table in which every row's log-probability stays above
`Lmax - 0.5` (here: a single-row table), the threshold loop of
`SamplingResult._values` runs off the end of the table — it reads
`d.lnprob.iloc[i]` before testing `i < d.shape[0]` — and raises `IndexError`
(modelled as `none`) instead of returning a summary. -/
theorem values_threshold_scan_overrun : svalues [⟨[1], 0⟩] = none := by
  norm_num [svalues, scanAux, lnprobMax, listMaxD, rowGE, List.insertionSort,
    List.orderedInsert]

/-- C6 counterexample: `UncertainValue(5, 0.2)` (no explicit `minus`) stores
`minus = None`, not the `plus` deviation `0.2` as the claim asserts. -/
theorem uncertain_value_default_counterexample :
    (mkUncertainValue 5 (1/5) none 1).minus ≠ some ((mkUncertainValue 5 (1/5) none 1).plus) := by
  simp [mkUncertainValue]

/-- C6 (amended): constructing an `UncertainValue` without an explicit
`minus` stores `minus = None` (the docstring's encoding of a symmetric
uncertainty); an explicitly given `minus` is stored unchanged, never
collapsed to `plus`. -/
theorem uncertain_value_minus_stored (v p m n : ℚ) :
    (mkUncertainValue v p none n).minus = none ∧
      (mkUncertainValue v p (some m) n).minus = some m :=
  ⟨rfl, rfl⟩

/-- C5: the classmethod `SamplingResult.load` reads the samples table of a
file written by `save` and then returns `None` — it never rebuilds a
`SamplingResult` and never reads the model metadata — while the module-level
`load_sampling` does satisfy the round-trip contract, recovering both the
samples table and the model definition exactly. -/
theorem load_save_roundtrip_status (r : SamplingResultM) :
    SamplingResult_load (SamplingResult_save r) = none ∧
      load_sampling (SamplingResult_save r) = r :=
  ⟨rfl, rfl⟩

/-- C4: on a collapsed (degenerate) chain — every walker at parameter value
`4`, summarized credible interval of width zero — `updated_priors` does not
raise any failure: it silently returns the refined prior `mu = 4, sd = 0`,
which the stage loop of `subset_tempering` then samples to seed the next
stage (the `TODO` at mcmc.py:121 records the missing handling). -/
theorem updated_priors_degenerate_silent :
    updated_priors exC4s = some [⟨4, 0⟩] := by
  norm_num [updated_priors, Emcee_values, data_frame, resolveThin, exC4s, pyInt,
    listMaxD, pySlice, pySliceGo, svalues, scanAux, lnprobMax, rowGE,
    List.insertionSort, List.orderedInsert, findBoundAux, anyEq, mkUVs,
    mkUncertainValue, updated_priors_model, prior_updated]

/-- C3 counterexample: in the table `exC3` the first row (`lnprob = 10`)
strictly dominates the two others (`5` and `4`), yet `SamplingResult._values`
reports `plus = 3 ≠ 0` for the parameter: the bound scan starts at row
`i + 1`, skipping the first sub-threshold row, and accumulates the later row
`[3]`. -/
theorem values_dominant_row_counterexample :
    svalues exC3 = some [mkUncertainValue 0 3 (some 0) 1] ∧
      (mkUncertainValue 0 3 (some 0) 1).plus ≠ 0 := by
  constructor
  · norm_num [svalues, exC3, scanAux, lnprobMax, listMaxD, rowGE, List.insertionSort,
      List.orderedInsert, findBoundAux, anyEq, mkUVs, mkUncertainValue]
  · norm_num [mkUncertainValue]

/-- C3 (amended): on a *two-row* table whose top row's log-probability
exceeds the other's by at least `0.5`, `SamplingResult._values` returns
`plus = minus = 0` for every parameter. -/
theorem values_two_row_dominant (a b : Row) (h : b.lnprob ≤ a.lnprob - 1/2) :
    svalues [a, b] = some (a.params.map fun v => mkUncertainValue v 0 (some 0) 1) := by
  have hab : rowGE a b := by
    unfold rowGE
    linarith
  have hsort : List.insertionSort rowGE [a, b] = [a, b] := by
    simp [List.insertionSort, List.orderedInsert, if_pos hab]
  have hmax : lnprobMax a [b] = a.lnprob := by
    unfold lnprobMax listMaxD
    simp [max_eq_left (show b.lnprob ≤ a.lnprob by linarith)]
  have hscan : scanAux (lnprobMax a [b] - 1/2) ([a, b].map Row.lnprob) 0 = some 1 := by
    rw [hmax]
    simp only [List.map_cons, List.map_nil, scanAux]
    rw [if_pos (show a.lnprob - 1/2 < a.lnprob by linarith),
      if_neg (show ¬ (a.lnprob - 1/2 < b.lnprob) by linarith)]
  simp only [svalues, hsort, hscan]
  simp [findBoundAux, mkUVs_self]

/-- Witness for C3 (amended) at a concrete two-row table. -/
theorem values_two_row_dominant_witness :
    ((9 : ℚ) ≤ 10 - 1/2) ∧
      svalues [⟨[2, 3], 10⟩, ⟨[1, 5], 9⟩] =
        some (([2, 3] : List ℚ).map fun v => mkUncertainValue v 0 (some 0) 1) :=
  ⟨by norm_num, values_two_row_dominant ⟨[2, 3], 10⟩ ⟨[1, 5], 9⟩ (by norm_num)⟩

/-- C2 counterexample: on the table `exC2` the summarizer's actual joint
bound scan (`plus = 10` for the first parameter, because the already-diverged
first parameter keeps accumulating while the second still equals its MAP
value) differs from the per-parameter independent scan the claim describes
(which would stop the first parameter at `plus = 5`). -/
theorem values_independent_scan_counterexample :
    svalues exC2 ≠ spec_values_independent exC2 := by
  norm_num [svalues, spec_values_independent, exC2, scanAux, findIdxQ, indepScanAux,
    lnprobMax, listMaxD, rowGE, List.insertionSort, List.orderedInsert, findBoundAux,
    anyEq, mkUVs, mkUncertainValue, List.range_succ, List.range_zero,
    List.filterMap_cons, List.filterMap_nil, List.getElem?_cons_zero,
    List.getElem?_cons_succ, Option.getD]

/-- C2 (amended): `SamplingResult._values` equals the loop-free description
`spec_values_joint`: `mp` is the top row of the descending sort, `i` is the
first index whose log-probability is `≤ Lmax - 0.5` (an `IndexError` when
there is none), and the per-parameter bounds are read off the trace of the
*joint* elementwise max/min fold over rows `i+1, ...`, every parameter being
updated at each step, the fold stopping only when all parameters have
diverged from `mp` (or rows are exhausted). -/
theorem values_joint_scan_spec (d : List Row) : svalues d = spec_values_joint d := by
  cases hs : List.insertionSort rowGE d with
  | nil => simp [svalues, spec_values_joint, hs]
  | cons r0 rest =>
    simp only [svalues, spec_values_joint, hs]
    rw [scanAux_eq_findIdxQ]
    cases hf : findIdxQ (fun v => decide (v ≤ lnprobMax r0 rest - 1/2))
        ((r0 :: rest).map Row.lnprob) with
    | none => simp
    | some i =>
      simp only [Option.map_some', Nat.add_zero]
      rw [findBoundAux_eq_boundPick, findBoundAux_eq_boundPick]

theorem pySlice_getElem {α : Type} (t : ℕ) (ht : 1 ≤ t) :
    ∀ (l : List α) (b j : ℕ), (pySlice l b t)[j]? = l[b + j * t]? := by
  intro l
  induction l with
  | nil => intro b j; simp [pySlice, pySliceGo]
  | cons x xs ih =>
    intro b j
    cases b with
    | zero =>
      cases j with
      | zero => simp [pySlice, pySliceGo]
      | succ j =>
        show (x :: pySliceGo t xs (t - 1))[j + 1]? = (x :: xs)[0 + (j + 1) * t]?
        rw [List.getElem?_cons_succ]
        have hmul : (j + 1) * t = j * t + t := Nat.succ_mul j t
        have hidx : 0 + (j + 1) * t = ((t - 1) + j * t) + 1 := by
          rw [hmul]
          omega
        rw [hidx, List.getElem?_cons_succ]
        exact ih (t - 1) j
    | succ b =>
      show (pySliceGo t xs b)[j]? = (x :: xs)[(b + 1) + j * t]?
      have hidx : (b + 1) + j * t = (b + j * t) + 1 := by omega
      rw [hidx, List.getElem?_cons_succ]
      exact ih b j

theorem pySlice_zero_one {α : Type} (l : List α) : pySlice l 0 1 = l := by
  induction l with
  | nil => rfl
  | cons x xs ih =>
    show x :: pySliceGo 1 xs 0 = x :: xs
    rw [show pySliceGo 1 xs 0 = pySlice xs 0 1 from rfl, ih]

/-- C7: `EmceeResult.data_frame(burn_in, thin='acor')` resolves the stride to
`int(max(self.sampler.acor))` — the maximum per-parameter autocorrelation
length, truncated to an integer — and its rows are the chain positions at
steps `burn_in, burn_in + stride, burn_in + 2*stride, ...` of each walker:
every walker's retained list satisfies `retained[j] = walker[burn_in + j*stride]`. -/
theorem data_frame_acor_spec (s : Sampler) (burn_in : ℕ) (x : ℚ) (xs : List ℚ)
    (hac : s.acor = x :: xs) (hpos : 1 ≤ pyInt (listMaxD xs x)) :
    data_frame s burn_in ThinArg.acor = some (List.zipWith Row.mk
        ((s.chain.map fun w => pySlice w burn_in (pyInt (listMaxD xs x)).toNat).flatten)
        ((s.lnprobability.map fun w => pySlice w burn_in (pyInt (listMaxD xs x)).toNat).flatten))
      ∧ ∀ w ∈ s.chain, ∀ j, (pySlice w burn_in (pyInt (listMaxD xs x)).toNat)[j]?
          = w[burn_in + j * (pyInt (listMaxD xs x)).toNat]? := by
  constructor
  · simp only [data_frame, resolveThin, hac, if_pos hpos]
  · intro w _ j
    exact pySlice_getElem ((pyInt (listMaxD xs x)).toNat) (by omega) w burn_in j

/-- Witness for C7 at a concrete one-walker, five-step sampler with
`acor = [2]`. -/
theorem data_frame_acor_spec_witness :
    exC7s.acor = [2] ∧ (1 : ℤ) ≤ pyInt (listMaxD [] 2) ∧
      (data_frame exC7s 1 ThinArg.acor = some (List.zipWith Row.mk
          ((exC7s.chain.map fun w => pySlice w 1 (pyInt (listMaxD [] 2)).toNat).flatten)
          ((exC7s.lnprobability.map fun w => pySlice w 1 (pyInt (listMaxD [] 2)).toNat).flatten))
        ∧ ∀ w ∈ exC7s.chain, ∀ j, (pySlice w 1 (pyInt (listMaxD [] 2)).toNat)[j]?
            = w[1 + j * (pyInt (listMaxD [] 2)).toNat]?) :=
  ⟨rfl, by norm_num [pyInt, listMaxD],
    data_frame_acor_spec exC7s 1 2 [] rfl (by norm_num [pyInt, listMaxD])⟩

/-- C9: with `stages=0` the fraction list is the single entry
`min_pixels/N`, the stage loop body never runs (`fractions[:-1]` is empty, so
`p0` stays `None`), and `subset_tempering` reduces to exactly one
`Emcee.sample` run whose initial positions are `make_guess()` — walker
positions drawn from the original model priors.  This holds for *every*
interpretation `ops` of the sampling/refinement operations, so no prior
refinement can influence the result. -/
theorem subset_tempering_zero_stages (R P : Type) (ops : McmcOps R P)
    (m M N sl fl : ℕ) (hm : 1 ≤ m) :
    subset_tempering_run ops m M N 0 sl fl = ops.sample ((m : ℝ) / N) fl ops.guess := by
  have hmpos : (0 : ℝ) < (m : ℝ) := by
    exact_mod_cast Nat.lt_of_lt_of_le Nat.zero_lt_one hm
  have hfr : subset_tempering_fractions m M N 0 = [(m : ℝ) / N] := by
    unfold subset_tempering_fractions np_logspace
    rw [show List.range (0 + 1) = [0] by decide]
    simp only [List.map_cons, List.map_nil, Nat.cast_zero, zero_mul, zero_div, add_zero]
    rw [Real.rpow_logb (by norm_num) (by norm_num) hmpos]
  unfold subset_tempering_run
  rw [hfr]
  simp [emcee_sample]

/-- Witness for C9 at a concrete instantiation of the abstract operations. -/
theorem subset_tempering_zero_stages_witness :
    1 ≤ 10 ∧ subset_tempering_run exC9ops 10 1000 10000 0 30 600
      = exC9ops.sample ((10 : ℝ) / 10000) 600 exC9ops.guess :=
  ⟨by norm_num, subset_tempering_zero_stages ℕ ℕ exC9ops 10 1000 10000 30 600 (by norm_num)⟩

/-- C1: for `stages ≥ 1`, `1 ≤ min_pixels < max_pixels ≤ N`, the fraction
sequence of `subset_tempering` has length `stages+1`, its `i`-th entry is
`10 ^ lerp(log10(min_pixels), log10(max_pixels), i/stages) / N`, it is
strictly increasing, its first entry is positive and its last entry is at
most `1`. -/
theorem subset_tempering_fractions_spec (m M N st : ℕ)
    (h1 : 1 ≤ st) (h2 : 1 ≤ m) (h3 : m < M) (h4 : M ≤ N) :
    (subset_tempering_fractions m M N st).length = st + 1 ∧
    (∀ i, i ≤ st → (subset_tempering_fractions m M N st)[i]? =
      some ((10 : ℝ) ^ (Real.logb 10 m + (i : ℝ) / st * (Real.logb 10 M - Real.logb 10 m))
        / N)) ∧
    (∀ i j x y, i < j → j ≤ st →
      (subset_tempering_fractions m M N st)[i]? = some x →
      (subset_tempering_fractions m M N st)[j]? = some y → x < y) ∧
    (∀ x, (subset_tempering_fractions m M N st)[0]? = some x → 0 < x) ∧
    (∀ y, (subset_tempering_fractions m M N st)[st]? = some y → y ≤ 1) := by
  have hstR : (0 : ℝ) < (st : ℝ) := by exact_mod_cast Nat.lt_of_lt_of_le Nat.zero_lt_one h1
  have hmR : (0 : ℝ) < (m : ℝ) := by exact_mod_cast Nat.lt_of_lt_of_le Nat.zero_lt_one h2
  have hMR : (0 : ℝ) < (M : ℝ) := by
    have : 0 < M := by omega
    exact_mod_cast this
  have hNR : (0 : ℝ) < (N : ℝ) := by
    have : 0 < N := by omega
    exact_mod_cast this
  have hlog : Real.logb 10 m < Real.logb 10 M :=
    Real.logb_lt_logb (by norm_num) hmR (by exact_mod_cast h3)
  have hget : ∀ i, i ≤ st → (subset_tempering_fractions m M N st)[i]? =
      some ((10 : ℝ) ^ (Real.logb 10 m + (i : ℝ) / st * (Real.logb 10 M - Real.logb 10 m))
        / N) := by
    intro i hi
    unfold subset_tempering_fractions np_logspace
    rw [List.getElem?_map, List.getElem?_map, List.getElem?_range (by omega : i < st + 1)]
    simp only [Option.map_some']
    have hexp : Real.logb 10 m + (i : ℝ) * (Real.logb 10 M - Real.logb 10 m)
          / (((st + 1 : ℕ) : ℝ) - 1)
        = Real.logb 10 m + (i : ℝ) / st * (Real.logb 10 M - Real.logb 10 m) := by
      push_cast
      ring
    rw [hexp]
  refine ⟨?_, hget, ?_, ?_, ?_⟩
  · simp [subset_tempering_fractions, np_logspace]
  · intro i j x y hij hj hx hy
    rw [hget i (by omega)] at hx
    rw [hget j hj] at hy
    have hx' := Option.some.inj hx
    have hy' := Option.some.inj hy
    subst hx'
    subst hy'
    have hexp : Real.logb 10 m + (i : ℝ) / st * (Real.logb 10 M - Real.logb 10 m)
        < Real.logb 10 m + (j : ℝ) / st * (Real.logb 10 M - Real.logb 10 m) := by
      have hij' : (i : ℝ) < (j : ℝ) := by exact_mod_cast hij
      have hd : (0 : ℝ) < Real.logb 10 M - Real.logb 10 m := by linarith
      have hdiv : (i : ℝ) / st < (j : ℝ) / st := (div_lt_div_iff_of_pos_right hstR).mpr hij'
      nlinarith
    have hpow := (Real.rpow_lt_rpow_left_iff (by norm_num : (1 : ℝ) < 10)).mpr hexp
    exact (div_lt_div_iff_of_pos_right hNR).mpr hpow
  · intro x hx
    rw [hget 0 (by omega)] at hx
    have hx' := Option.some.inj hx
    subst hx'
    positivity
  · intro y hy
    rw [hget st (by omega)] at hy
    have hy' := Option.some.inj hy
    subst hy'
    have hstne : (st : ℝ) ≠ 0 := ne_of_gt hstR
    have hexp : Real.logb 10 m + (st : ℝ) / st * (Real.logb 10 M - Real.logb 10 m)
        = Real.logb 10 M := by
      field_simp
    rw [hexp, Real.rpow_logb (by norm_num) (by norm_num) hMR]
    rw [div_le_one hNR]
    exact_mod_cast h4

/-- Witness for C1 at the defaults `min_pixels=10, max_pixels=1000,
stages=3` on a `100x100` image (`N = 10000`). -/
theorem subset_tempering_fractions_spec_witness :
    (1 ≤ 3 ∧ 1 ≤ 10 ∧ 10 < 1000 ∧ 1000 ≤ 10000) ∧
      (subset_tempering_fractions 10 1000 10000 3).length = 3 + 1 :=
  ⟨by norm_num,
    (subset_tempering_fractions_spec 10 1000 10000 3
      (by norm_num) (by norm_num) (by norm_num) (by norm_num)).1⟩

theorem scanAux_isSome (thr : ℚ) :
    ∀ l : List ℚ, (∃ v ∈ l, v ≤ thr) → ∀ j, ∃ i, scanAux thr l j = some i := by
  intro l
  induction l with
  | nil =>
    rintro ⟨v, hv, _⟩
    cases hv
  | cons v rest ih =>
    rintro ⟨w, hw, hwle⟩ j
    by_cases h : thr < v
    · have hwrest : w ∈ rest := by
        rcases List.mem_cons.mp hw with h1 | h1
        · subst h1
          exact absurd hwle (not_le.mpr h)
        · exact h1
      obtain ⟨i, hi⟩ := ih ⟨w, hwrest, hwle⟩ (j + 1)
      exact ⟨i, by simp [scanAux, if_pos h, hi]⟩
    · exact ⟨j, by simp [scanAux, if_neg h]⟩

theorem findBoundAux_length (f : ℚ → ℚ → ℚ) (mp : List ℚ) (n : ℕ) :
    ∀ rows : List Row, (∀ x ∈ rows, x.params.length = n) →
      ∀ b : List ℚ, b.length = n → (findBoundAux f mp b rows).length = n := by
  intro rows
  induction rows with
  | nil =>
    intro _ b hb
    exact hb
  | cons r rest ih =>
    intro hrows b hb
    by_cases h : anyEq b mp
    · simp only [findBoundAux, h, if_true]
      apply ih (fun x hx => hrows x (List.mem_cons_of_mem r hx))
      rw [List.length_zipWith, hb, hrows r (List.mem_cons_self r rest)]
      exact Nat.min_self n
    · simp only [findBoundAux, h, Bool.false_eq_true, if_false]
      exact hb

theorem mkUVs_map_value :
    ∀ mp u l : List ℚ, mp.length ≤ u.length → mp.length ≤ l.length →
      (mkUVs mp u l).map UncertainValue.value = mp := by
  intro mp
  induction mp with
  | nil =>
    intro u l _ _
    rfl
  | cons v t ih =>
    intro u l hu hl
    cases u with
    | nil => simp at hu
    | cons uv ut =>
      cases l with
      | nil => simp at hl
      | cons lv lt =>
        simp only [mkUVs, List.zip_cons_cons, List.map_cons] at ih ⊢
        rw [ih ut lt (by simpa using hu) (by simpa using hl)]
        rfl

theorem svalues_map_spec (d : List Row) (r : Row)
    (hr : r ∈ d)
    (hmax : ∀ x ∈ d, x.lnprob ≤ r.lnprob)
    (huniq : ∀ x ∈ d, x.lnprob = r.lnprob → x.params = r.params)
    (hdrop : ∃ x ∈ d, x.lnprob ≤ r.lnprob - 1/2)
    (hrect : ∀ x ∈ d, x.params.length = r.params.length) :
    ∃ uvs, svalues d = some uvs ∧ uvs.map UncertainValue.value = r.params := by
  have hperm := List.perm_insertionSort rowGE d
  have hsorted := List.sorted_insertionSort rowGE d
  cases hs : List.insertionSort rowGE d with
  | nil =>
    rw [hs] at hperm
    have hd : d = [] := hperm.symm.eq_nil
    rw [hd] at hr
    cases hr
  | cons r0 rest =>
    rw [hs] at hperm hsorted
    have hmem : ∀ x : Row, x ∈ r0 :: rest ↔ x ∈ d := fun x => hperm.mem_iff
    have hr0d : r0 ∈ d := (hmem r0).mp (List.mem_cons_self r0 rest)
    have hsorted' := List.sorted_cons.mp hsorted
    have hrs : r ∈ r0 :: rest := (hmem r).mpr hr
    have hler : r.lnprob ≤ r0.lnprob := by
      rcases List.mem_cons.mp hrs with h | h
      · rw [h]
      · exact hsorted'.1 r h
    have heq0 : r0.lnprob = r.lnprob := le_antisymm (hmax r0 hr0d) hler
    have hmp : r0.params = r.params := huniq r0 hr0d heq0
    have hLmax : lnprobMax r0 rest = r0.lnprob := by
      apply listMaxD_eq_of_le
      intro y hy
      obtain ⟨b, hb, rfl⟩ := List.mem_map.mp hy
      exact hsorted'.1 b hb
    obtain ⟨w, hwd, hwle⟩ := hdrop
    have hwmem : w.lnprob ∈ (r0 :: rest).map Row.lnprob :=
      List.mem_map.mpr ⟨w, (hmem w).mpr hwd, rfl⟩
    have hthr : w.lnprob ≤ lnprobMax r0 rest - 1/2 := by
      rw [hLmax, heq0]
      exact hwle
    obtain ⟨i, hi⟩ := scanAux_isSome _ _ ⟨w.lnprob, hwmem, hthr⟩ 0
    have hlen : ∀ x ∈ (r0 :: rest).drop (i + 1), x.params.length = r.params.length :=
      fun x hx => hrect x ((hmem x).mp (List.mem_of_mem_drop hx))
    have hulen := findBoundAux_length (fun a b => max a b) r0.params r.params.length
      ((r0 :: rest).drop (i + 1)) hlen r0.params (by rw [hmp])
    have hllen := findBoundAux_length (fun a b => min a b) r0.params r.params.length
      ((r0 :: rest).drop (i + 1)) hlen r0.params (by rw [hmp])
    refine ⟨mkUVs r0.params
        (findBoundAux (fun a b => max a b) r0.params r0.params ((r0 :: rest).drop (i + 1)))
        (findBoundAux (fun a b => min a b) r0.params r0.params ((r0 :: rest).drop (i + 1))),
      ?_, ?_⟩
    · simp only [svalues, hs, hi]
    · rw [mkUVs_map_value _ _ _ (le_of_eq (by rw [hulen, hmp])) (le_of_eq (by rw [hllen, hmp]))]
      exact hmp

theorem zipWith_eq_map_zip {α β γ : Type} (f : α → β → γ) :
    ∀ (as : List α) (bs : List β),
      List.zipWith f as bs = (as.zip bs).map fun p => f p.1 p.2 := by
  intro as
  induction as with
  | nil => intro bs; simp
  | cons a as ih =>
    intro bs
    cases bs with
    | nil => simp
    | cons b bs => simp [List.zip_cons_cons, ih]

theorem zipWith_flatten_eq {α β γ : Type} (f : α → β → γ) :
    ∀ (as : List (List α)) (bs : List (List β)), as.length = bs.length →
      (∀ p ∈ as.zip bs, p.1.length = p.2.length) →
      List.zipWith f as.flatten bs.flatten
        = ((as.zip bs).map fun p => List.zipWith f p.1 p.2).flatten := by
  intro as
  induction as with
  | nil =>
    intro bs h1 _
    cases bs with
    | nil => rfl
    | cons b bs => simp at h1
  | cons a as ih =>
    intro bs h1 h2
    cases bs with
    | nil => simp at h1
    | cons b bs =>
      have hab : a.length = b.length := h2 (a, b) (by simp [List.zip_cons_cons])
      simp only [List.flatten_cons, List.zip_cons_cons, List.map_cons]
      rw [List.zipWith_append f a as.flatten b bs.flatten hab]
      rw [ih bs (by simpa using h1) (fun p hp => h2 p (List.mem_cons_of_mem _ hp))]

theorem flatten_length_eq {α β : Type} :
    ∀ (as : List (List α)) (bs : List (List β)), as.length = bs.length →
      (∀ p ∈ as.zip bs, p.1.length = p.2.length) →
      as.flatten.length = bs.flatten.length := by
  intro as
  induction as with
  | nil =>
    intro bs h1 _
    cases bs with
    | nil => rfl
    | cons b bs => simp at h1
  | cons a as ih =>
    intro bs h1 h2
    cases bs with
    | nil => simp at h1
    | cons b bs =>
      simp only [List.flatten_cons, List.length_append]
      rw [h2 (a, b) (by simp [List.zip_cons_cons]),
        ih bs (by simpa using h1) (fun p hp => h2 p (List.mem_cons_of_mem _ hp))]

theorem mem_flatRows_iff (s : Sampler) (h : shapeOk s) (v : List ℚ) (l : ℚ) :
    Row.mk v l ∈ flatRows s ↔
      ∃ p ∈ s.chain.zip s.lnprobability, (v, l) ∈ p.1.zip p.2 := by
  unfold flatRows
  rw [zipWith_flatten_eq Row.mk s.chain s.lnprobability h.1 h.2, List.mem_flatten]
  constructor
  · rintro ⟨lrows, hlr, hmem⟩
    obtain ⟨p, hp, rfl⟩ := List.mem_map.mp hlr
    rw [zipWith_eq_map_zip] at hmem
    obtain ⟨q, hq, hqe⟩ := List.mem_map.mp hmem
    have hq1 : q.1 = v := congrArg Row.params hqe
    have hq2 : q.2 = l := congrArg Row.lnprob hqe
    refine ⟨p, hp, ?_⟩
    have : q = (v, l) := Prod.ext hq1 hq2
    rw [← this]
    exact hq
  · rintro ⟨p, hp, hq⟩
    refine ⟨List.zipWith Row.mk p.1 p.2, List.mem_map.mpr ⟨p, hp, rfl⟩, ?_⟩
    rw [zipWith_eq_map_zip]
    exact List.mem_map.mpr ⟨(v, l), hq, rfl⟩

theorem flatRows_lnprob_mem (s : Sampler) (r : Row) (hr : r ∈ flatRows s) :
    r.lnprob ∈ s.lnprobability.flatten := by
  unfold flatRows at hr
  rw [zipWith_eq_map_zip] at hr
  obtain ⟨q, hq, hqe⟩ := List.mem_map.mp hr
  have h2 := (List.of_mem_zip hq).2
  have : q.2 = r.lnprob := congrArg Row.lnprob hqe
  rw [← this]
  exact h2

theorem flatten_lnprob_to_row (s : Sampler) (h : shapeOk s) (l : ℚ)
    (hl : l ∈ s.lnprobability.flatten) :
    ∃ v, Row.mk v l ∈ flatRows s := by
  obtain ⟨k, hk⟩ := List.mem_iff_getElem?.mp hl
  have hlen := flatten_length_eq s.chain s.lnprobability h.1 h.2
  have hklt : k < s.lnprobability.flatten.length := (List.getElem?_eq_some_iff.mp hk).1
  have hk2 : k < s.chain.flatten.length := by
    rw [hlen]
    exact hklt
  obtain ⟨v, hv⟩ : ∃ v, s.chain.flatten[k]? = some v :=
    ⟨s.chain.flatten[k], List.getElem?_eq_some_iff.mpr ⟨hk2, rfl⟩⟩
  refine ⟨v, ?_⟩
  have hz : (List.zipWith Row.mk s.chain.flatten s.lnprobability.flatten)[k]?
      = some (Row.mk v l) :=
    List.getElem?_zipWith_eq_some.mpr ⟨v, l, hv, hk, rfl⟩
  exact List.mem_iff_getElem?.mpr ⟨k, hz⟩

theorem maxPositions_spec (s : Sampler) (h : shapeOk s) (r : Row)
    (hr : r ∈ flatRows s)
    (hmax : ∀ x ∈ flatRows s, x.lnprob ≤ r.lnprob)
    (huniq : ∀ x ∈ flatRows s, x.lnprob = r.lnprob → x.params = r.params) :
    (∀ y ∈ maxPositions s, y = r.params) ∧ maxPositions s ≠ [] := by
  have hrl := flatRows_lnprob_mem s r hr
  cases hjoin : s.lnprobability.flatten with
  | nil =>
    rw [hjoin] at hrl
    cases hrl
  | cons x xs =>
    have hmle : listMaxD xs x ≤ r.lnprob := by
      have hmmem : listMaxD xs x ∈ x :: xs := listMaxD_mem_cons xs x
      rw [← hjoin] at hmmem
      obtain ⟨v, hv⟩ := flatten_lnprob_to_row s h (listMaxD xs x) hmmem
      exact hmax _ hv
    have hrm : r.lnprob ≤ listMaxD xs x := by
      rw [hjoin] at hrl
      rcases List.mem_cons.mp hrl with h1 | h1
      · rw [h1]
        exact le_listMaxD xs x
      · exact mem_le_listMaxD xs x _ h1
    have hmr : listMaxD xs x = r.lnprob := le_antisymm hmle hrm
    have hchar : ∀ y, y ∈ maxPositions s ↔ Row.mk y (listMaxD xs x) ∈ flatRows s := by
      intro y
      simp only [maxPositions, hjoin, List.mem_flatten]
      constructor
      · rintro ⟨ll, hll, hy⟩
        obtain ⟨p, hp, rfl⟩ := List.mem_map.mp hll
        obtain ⟨q, hq, hqe⟩ := List.mem_filterMap.mp hy
        by_cases hqm : q.2 = listMaxD xs x
        · rw [if_pos hqm] at hqe
          have hq1 : q.1 = y := Option.some.inj hqe
          rw [mem_flatRows_iff s h]
          refine ⟨p, hp, ?_⟩
          have : q = (y, listMaxD xs x) := Prod.ext hq1 hqm
          rw [← this]
          exact hq
        · rw [if_neg hqm] at hqe
          cases hqe
      · intro hy
        rw [mem_flatRows_iff s h] at hy
        obtain ⟨p, hp, hq⟩ := hy
        refine ⟨_, List.mem_map.mpr ⟨p, hp, rfl⟩, ?_⟩
        exact List.mem_filterMap.mpr ⟨(y, listMaxD xs x), hq, by rw [if_pos rfl]⟩
    constructor
    · intro y hy
      exact huniq _ ((hchar y).mp hy) hmr
    · have hrr : Row.mk r.params (listMaxD xs x) ∈ flatRows s := by
        rw [hmr]
        exact hr
      intro hnil
      have hin := (hchar r.params).mpr hrr
      rw [hnil] at hin
      cases hin

theorem most_probable_values_spec (s : Sampler) (h : shapeOk s) (r : Row)
    (hr : r ∈ flatRows s)
    (hmax : ∀ x ∈ flatRows s, x.lnprob ≤ r.lnprob)
    (huniq : ∀ x ∈ flatRows s, x.lnprob = r.lnprob → x.params = r.params) :
    most_probable_values s = [r.params] := by
  obtain ⟨hall, hne⟩ := maxPositions_spec s h r hr hmax huniq
  cases hmp : maxPositions s with
  | nil => exact absurd hmp hne
  | cons v rest =>
    have hv : v = r.params := hall v (by rw [hmp]; exact List.mem_cons_self _ _)
    have hrest : ∀ y ∈ rest, y = v := by
      intro y hy
      rw [hall y (by rw [hmp]; exact List.mem_cons_of_mem _ hy), hv]
    have hcond : rest.all (fun y => decide (y = v)) = true :=
      List.all_eq_true.mpr fun y hy => decide_eq_true (hrest y hy)
    simp only [most_probable_values, hmp, hcond, if_true]
    rw [hv]

theorem data_frame_noThin (s : Sampler) : data_frame s 0 ThinArg.noThin = some (flatRows s) := by
  simp only [data_frame, resolveThin]
  rw [if_pos (by norm_num : (1 : ℤ) ≤ 1)]
  simp [pySlice_zero_one, flatRows]

/-- C8 counterexample: on the chain `exC8s` (log-probabilities `10` and
`9.9`, within `0.5` of each other) `EmceeResult.values()` — flatten with
`thin=None` then summarize — crashes in the threshold scan (modelled `none`)
and yields no MAP point, while `most_probable_values()` read directly off the
chain returns `[[1]]`. -/
theorem values_vs_most_probable_counterexample :
    Emcee_values exC8s = none ∧ most_probable_values exC8s = [[1]] := by
  constructor
  · norm_num [Emcee_values, data_frame, resolveThin, exC8s, pySlice, pySliceGo,
      svalues, scanAux, lnprobMax, listMaxD, rowGE, List.insertionSort,
      List.orderedInsert]
  · norm_num [most_probable_values, maxPositions, exC8s, listMaxD,
      List.filterMap_cons, List.filterMap_nil]

/-- C8 (amended): when some flattened row sits at least `0.5` below the
maximum log-probability (so the summarizer's threshold scan terminates
instead of raising), and every chain position attaining the maximum carries
the same parameter vector, flattening with `thin=None` and no burn-in and
then summarizing yields exactly that parameter vector as the MAP point —
the same point `most_probable_values` reads directly off the untouched
chain. -/
theorem values_vs_most_probable (s : Sampler) (r : Row)
    (hshape : shapeOk s)
    (hr : r ∈ flatRows s)
    (hmax : ∀ x ∈ flatRows s, x.lnprob ≤ r.lnprob)
    (huniq : ∀ x ∈ flatRows s, x.lnprob = r.lnprob → x.params = r.params)
    (hdrop : ∃ x ∈ flatRows s, x.lnprob ≤ r.lnprob - 1/2)
    (hrect : ∀ x ∈ flatRows s, x.params.length = r.params.length) :
    (∃ uvs, Emcee_values s = some uvs ∧ uvs.map UncertainValue.value = r.params)
      ∧ most_probable_values s = [r.params] := by
  constructor
  · have hev : Emcee_values s = svalues (flatRows s) := by
      simp only [Emcee_values, data_frame_noThin]
    rw [hev]
    exact svalues_map_spec (flatRows s) r hr hmax huniq hdrop hrect
  · exact most_probable_values_spec s hshape r hr hmax huniq

/-- Witness for C8 (amended) at a concrete one-walker, two-step sampler. -/
theorem values_vs_most_probable_witness :
    (shapeOk exC8w ∧ (⟨[1], 10⟩ : Row) ∈ flatRows exC8w ∧
      (∀ x ∈ flatRows exC8w, x.lnprob ≤ (10 : ℚ)) ∧
      (∀ x ∈ flatRows exC8w, x.lnprob = (10 : ℚ) → x.params = [1]) ∧
      (∃ x ∈ flatRows exC8w, x.lnprob ≤ (10 : ℚ) - 1/2) ∧
      (∀ x ∈ flatRows exC8w, x.params.length = 1)) ∧
    ((∃ uvs, Emcee_values exC8w = some uvs ∧ uvs.map UncertainValue.value = [1])
      ∧ most_probable_values exC8w = [[1]]) := by
  refine ⟨⟨?_, ?_, ?_, ?_, ?_, ?_⟩, ?_⟩
  · exact ⟨rfl, by norm_num [exC8w]⟩
  · norm_num [flatRows, exC8w]
  · norm_num [flatRows, exC8w]
  · norm_num [flatRows, exC8w]
  · norm_num [flatRows, exC8w]
  · norm_num [flatRows, exC8w]
  · exact values_vs_most_probable exC8w ⟨[1], 10⟩
      ⟨rfl, by norm_num [exC8w]⟩
      (by norm_num [flatRows, exC8w])
      (by norm_num [flatRows, exC8w])
      (by norm_num [flatRows, exC8w])
      (by norm_num [flatRows, exC8w])
      (by norm_num [flatRows, exC8w])

end HolopyMcmc
